import Mathlib

/-!
Verification of the token-budget-aware recursive chunking algorithm of the
Document-Processing-Service repository
(src/app/adapters/document_processor/docling_document_processor.py).

Text is modelled as `List Char`.  The injected token counter is modelled as a
function `List Char → Option Nat`, where `none` models the counter raising an
exception; Python `try/except` blocks become explicit handling of `none`.
All definitions below are direct translations of the corresponding Python
methods of `DoclingDocumentProcessor`.
-/

namespace DocProc

/-- Characters treated as whitespace by Python `str.strip()`, `str.split()`
and by the ASCII regex class `\s`: space, tab, newline, carriage return,
vertical tab and form feed. -/
def pyIsSpace (c : Char) : Bool :=
  c = ' ' || c = '\t' || c = '\n' || c = '\r' || c = Char.ofNat 11 || c = Char.ofNat 12

/-- Python `str.strip()`: remove leading and trailing whitespace. -/
def strip (s : List Char) : List Char :=
  ((s.dropWhile pyIsSpace).reverse.dropWhile pyIsSpace).reverse

/-- The non-whitespace characters of a string, in order. -/
def nw (s : List Char) : List Char :=
  s.filter (fun c => !pyIsSpace c)

/-- Helper used by the splitting functions: prepend a character to the first
piece of a split result. -/
def consHead (c : Char) : List (List Char) → List (List Char)
  | [] => [[c]]
  | w :: ws => (c :: w) :: ws

/-- Split a string at every character satisfying `p`; pieces may be empty and
the separator characters are dropped. -/
def splitChars (p : Char → Bool) : List Char → List (List Char)
  | [] => [[]]
  | c :: rest => if p c then [] :: splitChars p rest else consHead c (splitChars p rest)

/-- Python `text.split()` with no argument: split on whitespace runs and drop
empty pieces. -/
def pySplit (s : List Char) : List (List Char) :=
  (splitChars pyIsSpace s).filter (fun w => w ≠ [])

/-- Python `text.split(s)` for the separator consisting of two newline
characters, scanning left to right (source line 331). -/
def splitNN : List Char → List (List Char)
  | '\n' :: '\n' :: rest => [] :: splitNN rest
  | c :: rest => consHead c (splitNN rest)
  | [] => [[]]

/-- Sentence-final punctuation of the regex class `[.!?]` (source line 394). -/
def sentPunct (c : Char) : Bool := c = '.' || c = '!' || c = '?'

/-- Whether a string starts with a whitespace character. -/
def headIsSpace : List Char → Bool
  | [] => false
  | c :: _ => pyIsSpace c

/-- Python `re.split` on a pattern matching a whitespace run immediately
preceded by `.`, `!` or `?` (source line 394), written with explicit fuel so
that it is structurally recursive; `splitSent` supplies fuel equal to the
length of the input, which always suffices. -/
def splitSentGo : Nat → List Char → List (List Char)
  | _, [] => [[]]
  | 0, s => [s]
  | fuel + 1, c :: rest =>
    if sentPunct c && headIsSpace rest then
      [c] :: splitSentGo fuel (rest.dropWhile pyIsSpace)
    else consHead c (splitSentGo fuel rest)

/-- Python `re.split` of the sentence-boundary pattern over a whole string. -/
def splitSent (s : List Char) : List (List Char) := splitSentGo s.length s

/-- Python `" ".join(ws)`. -/
def joinSpace (ws : List (List Char)) : List Char := List.intercalate [' '] ws

/-- Token counter: `some n` is a successful count, `none` models the counter
raising an exception. -/
abbrev Counter := List Char → Option Nat

/-- Loop body of `_split_by_words` (source lines 445-456): fold over the
words with the accumulated chunk list and the current buffer. -/
def sbw_go (ct : Counter) (cs : Nat) :
    List (List Char) → List (List Char) → List Char → Option (List (List Char))
  | [], chunks, cur => some (if cur ≠ [] then chunks ++ [cur] else chunks)
  | w :: ws, chunks, cur =>
    let test := strip (cur ++ ' ' :: w)
    match ct test with
    | none => none
    | some tt =>
      if cs < tt ∧ cur ≠ [] then sbw_go ct cs ws (chunks ++ [cur]) w
      else sbw_go ct cs ws chunks test

/-- `_split_by_words` (source lines 439-458): greedy word packing measured on
the joined buffer; exceptions from the counter propagate (`none`). -/
def split_by_words (ct : Counter) (cs : Nat) (text : List Char) :
    Option (List (List Char)) :=
  sbw_go ct cs (pySplit text) [] []

/-- Loop body of `_get_overlap_text` (source lines 493-501): walk the words in
reverse, accumulating while the joined suffix stays within the target. -/
def overlap_go (ct : Counter) (target : Nat) :
    List (List Char) → List (List Char) → Option (List (List Char))
  | [], acc => some acc
  | w :: ws, acc =>
    match ct (joinSpace (w :: acc)) with
    | none => none
    | some tt => if target < tt then some acc else overlap_go ct target ws (w :: acc)

/-- `_get_overlap_text` (source lines 485-507): the internal `try/except`
turns a counter exception into the empty string. -/
def get_overlap_text (ct : Counter) (text : List Char) (target : Nat) : List Char :=
  match overlap_go ct target (pySplit text).reverse [] with
  | none => []
  | some acc => joinSpace acc

/-- Loop body of `_apply_overlap` for positions after the first chunk
(source lines 467-481); `prev` is the previous chunk of the original,
pre-overlap sequence. -/
def apply_overlap_go (ct : Counter) (co : Nat) :
    List Char → List (List Char) → List (List Char)
  | _, [] => []
  | prev, c :: rest =>
    let ov := get_overlap_text ct prev co
    (if ov ≠ [] then ov ++ ' ' :: c else c) :: apply_overlap_go ct co c rest

/-- `_apply_overlap` (source lines 460-483): the first chunk is kept
unchanged; every later chunk gets the overlap text of its predecessor
prepended when that text is non-empty. -/
def apply_overlap (ct : Counter) (co : Nat) : List (List Char) → List (List Char)
  | [] => []
  | c :: rest => c :: apply_overlap_go ct co c rest

/-- Loop body of `_split_by_sentences` (source lines 404-428): greedy sentence
packing with an additively tracked token total `curTok`. -/
def sbs_go (ct : Counter) (cs : Nat) :
    List (List Char) → List (List Char) → List Char → Nat → Option (List (List Char))
  | [], chunks, cur, _ => some (if strip cur ≠ [] then chunks ++ [strip cur] else chunks)
  | s :: ss, chunks, cur, curTok =>
    match ct s with
    | none => none
    | some st =>
      if cs < st then
        match split_by_words ct cs s with
        | none => none
        | some wcs =>
          sbs_go ct cs ss ((if cur ≠ [] then chunks ++ [strip cur] else chunks) ++ wcs) [] 0
      else if cs < curTok + st ∧ cur ≠ [] then
        sbs_go ct cs ss (chunks ++ [strip cur]) s st
      else if cur ≠ [] then
        sbs_go ct cs ss chunks (cur ++ ' ' :: s) (curTok + st)
      else
        sbs_go ct cs ss chunks s st

/-- Body of `_split_by_sentences` inside its `try` block (source lines
391-433): sentence split, strip, drop empties; if nothing remains the text is
returned whole, otherwise the greedy packing loop runs. -/
def split_by_sentences_core (ct : Counter) (cs : Nat) (text : List Char) :
    Option (List (List Char)) :=
  if ((splitSent text).map strip).filter (fun s => s ≠ []) = [] then some [text]
  else sbs_go ct cs (((splitSent text).map strip).filter (fun s => s ≠ [])) [] [] 0

/-- `_split_by_sentences` (source lines 389-437): its `except` clause returns
`[text]`, so a counter exception never escapes this function. -/
def split_by_sentences (ct : Counter) (cs : Nat) (text : List Char) : List (List Char) :=
  (split_by_sentences_core ct cs text).getD [text]

/-- Loop body of `_recursive_token_split` over the paragraph list (source
lines 337-373): empty paragraphs are skipped after stripping, oversized
paragraphs are sentence-split, the rest are packed greedily with the
double-newline joiner. -/
def rts_go (ct : Counter) (cs : Nat) :
    List (List Char) → List (List Char) → List Char → Nat → Option (List (List Char))
  | [], chunks, cur, _ => some (if strip cur ≠ [] then chunks ++ [strip cur] else chunks)
  | para :: ps, chunks, cur, curTok =>
    if strip para = [] then rts_go ct cs ps chunks cur curTok
    else
      match ct (strip para) with
      | none => none
      | some pt =>
        if cs < pt then
          rts_go ct cs ps
            ((if cur ≠ [] then chunks ++ [strip cur] else chunks) ++
              split_by_sentences ct cs (strip para)) [] 0
        else if cs < curTok + pt ∧ cur ≠ [] then
          rts_go ct cs ps (chunks ++ [strip cur]) (strip para) pt
        else if cur ≠ [] then
          rts_go ct cs ps chunks (cur ++ '\n' :: '\n' :: strip para) (curTok + pt)
        else
          rts_go ct cs ps chunks (strip para) pt

/-- The chunk sequence computed by `_recursive_token_split` before the
overlap step (source lines 320-377): base case for small inputs, paragraph
packing when the double-newline split yields several pieces, otherwise the
sentence splitter on the whole text. -/
def hierarchical_chunks (ct : Counter) (cs : Nat) (text : List Char) :
    Option (List (List Char)) :=
  match ct text with
  | none => none
  | some tc =>
    if tc ≤ cs then some [text]
    else if 1 < (splitNN text).length then rts_go ct cs (splitNN text) [] [] 0
    else some (split_by_sentences ct cs text)

/-- Loop body of `_fallback_character_split` (source lines 514-517), written
with fuel (the input length, which always suffices for a positive window). -/
def fallback_go (csc : Nat) : Nat → List Char → List (List Char)
  | _, [] => []
  | 0, _ => []
  | fuel + 1, s =>
    (if strip (s.take csc) ≠ [] then [strip (s.take csc)] else []) ++
      fallback_go csc fuel (s.drop csc)

/-- `_fallback_character_split` (source lines 509-519): fixed windows of
`chunk_size * 4` characters, stripped, empties dropped. -/
def fallback_character_split (cs : Nat) (text : List Char) : List (List Char) :=
  fallback_go (cs * 4) text.length text

/-- `_recursive_token_split` inside its `try` block (source lines 320-382):
the hierarchical chunks with the overlap step applied when there are several
chunks and a positive overlap setting. -/
def recursive_token_split_core (ct : Counter) (cs co : Nat) (text : List Char) :
    Option (List (List Char)) :=
  match hierarchical_chunks ct cs text with
  | none => none
  | some chunks =>
    some (if 1 < chunks.length ∧ 0 < co then apply_overlap ct co chunks else chunks)

/-- `_recursive_token_split` (source lines 318-387): its `except` clause
falls back to the character-based split. -/
def recursive_token_split (ct : Counter) (cs co : Nat) (text : List Char) :
    List (List Char) :=
  (recursive_token_split_core ct cs co text).getD (fallback_character_split cs text)

/-- `_validate_chunk_parameters` (source lines 170-195): `some message`
models a raised `ValueError`; the size-mismatch warning is modelled
separately by `size_mismatch_warning`. -/
def validate_chunk_parameters (cs co mcs : Int) : Option String :=
  if cs ≤ 0 then some "chunk_size must be positive"
  else if co < 0 then some "chunk_overlap must be non-negative"
  else if cs ≤ co then some "chunk_overlap must be less than chunk_size"
  else if mcs ≤ 0 then some "min_chunk_size must be positive"
  else none

/-- The advisory size-mismatch warning condition of
`_validate_chunk_parameters` (source line 191). -/
def size_mismatch_warning (cs mcs : Int) : Bool := decide (cs * 4 < mcs)

/-- The data carried by a produced chunk that is relevant to the claims:
`chunk_index` is the loop index used at source line 306, `content` the
stripped text (line 305), `token_count` the count of the unstripped text
(line 290). -/
structure DocChunk where
  chunk_index : Nat
  content : List Char
  token_count : Nat
deriving DecidableEq

/-- Loop body of `_create_token_chunks` (source lines 284-310): enumerate the
fragments, skip those whose stripped length is below `min_chunk_size`, and
build a chunk record from the others. -/
def ctc_go (f : List Char → Nat) (mcs : Nat) : Nat → List (List Char) → List DocChunk
  | _, [] => []
  | i, c :: rest =>
    if (strip c).length < mcs then ctc_go f mcs (i + 1) rest
    else ⟨i, strip c, f c⟩ :: ctc_go f mcs (i + 1) rest

/-- The filtering and indexing performed by `_create_token_chunks` (source
lines 284-310) over the chunk strings returned by the splitter; the counter
is total here, matching the claims that exercise this stage. -/
def create_token_chunks (f : List Char → Nat) (mcs : Nat)
    (chunks : List (List Char)) : List DocChunk :=
  ctc_go f mcs 0 chunks

/-- Word-count token counter used by the concrete scenarios of the spec. -/
def wcount (s : List Char) : Nat := (pySplit s).length

/-- The word counter as a never-raising `Counter`. -/
def wcounter : Counter := fun s => some (wcount s)

/-- Character-count token counter (pure and total). -/
def ccount (s : List Char) : Nat := s.length

/-- The character counter as a never-raising `Counter`. -/
def ccounter : Counter := fun s => some (ccount s)

/-- Counter counting the non-whitespace characters of a string; used as a
concrete counter satisfying the subadditivity side conditions. -/
def nwcount (s : List Char) : Nat := (nw s).length

/-- Counter raising exactly on the sentence "ab." of the text "ab. cd";
used to exercise the error path inside `_split_by_sentences`. -/
def exCounterSent : Counter :=
  fun s => if s = "ab.".toList then none else some s.length

/-- Counter raising exactly on the word "b", a string queried only during
overlap computation for the chunks of "a b c d". -/
def exCounterOv : Counter :=
  fun s => if s = "b".toList then none else some (wcount s)

/-- Counter that always raises. -/
def noneCounter : Counter := fun _ => none

/-- The transformation `_apply_overlap` performs on a non-first chunk, as a
function of the previous pre-overlap chunk (source lines 472-481). -/
def ovPair (ct : Counter) (co : Nat) (prev c : List Char) : List Char :=
  if get_overlap_text ct prev co ≠ [] then get_overlap_text ct prev co ++ ' ' :: c
  else c

/-- A chunk respects the claim: its token count is within the budget, or it
consists of at most one word. -/
def okChunk (f : List Char → Nat) (cs : Nat) (c : List Char) : Prop :=
  f c ≤ cs ∨ (pySplit c).length ≤ 1

/-- A non-empty string with no whitespace (the shape of every word produced
by `pySplit`). -/
def wordlike (w : List Char) : Prop := w ≠ [] ∧ ∀ c ∈ w, pyIsSpace c = false


/-! ### Basic facts about the string primitives -/

theorem consHead_ne_nil (c : Char) (l : List (List Char)) : consHead c l ≠ [] := by
  cases l <;> simp [consHead]

theorem join_consHead (c : Char) (l : List (List Char)) :
    (consHead c l).flatten = c :: l.flatten := by
  cases l <;> simp [consHead]

theorem splitChars_ne_nil (p : Char → Bool) (s : List Char) : splitChars p s ≠ [] := by
  induction s with
  | nil => simp [splitChars]
  | cons c rest ih =>
    simp only [splitChars]
    split
    · simp
    · exact consHead_ne_nil _ _

theorem join_splitChars (p : Char → Bool) (s : List Char) :
    (splitChars p s).flatten = s.filter (fun c => !p c) := by
  induction s with
  | nil => simp [splitChars]
  | cons c rest ih =>
    simp only [splitChars]
    by_cases h : p c
    · simp [h, ih, List.filter_cons]
    · simp [h, join_consHead, ih, List.filter_cons]

theorem splitChars_no_sep (p : Char → Bool) (s : List Char) :
    ∀ w ∈ splitChars p s, ∀ c ∈ w, p c = false := by
  induction s with
  | nil =>
    intro w hw
    simp [splitChars] at hw
    simp [hw]
  | cons c rest ih =>
    intro w hw
    simp only [splitChars] at hw
    by_cases h : p c
    · rw [if_pos h] at hw
      rcases List.mem_cons.mp hw with rfl | hw
      · simp
      · exact ih w hw
    · rw [if_neg h] at hw
      obtain ⟨w0, ws, hsc⟩ := List.exists_cons_of_ne_nil (splitChars_ne_nil p rest)
      rw [hsc] at hw
      simp only [consHead] at hw
      rcases List.mem_cons.mp hw with rfl | hw
      · intro d hd
        rcases List.mem_cons.mp hd with rfl | hd
        · simpa using h
        · exact ih w0 (by rw [hsc]; simp) d hd
      · exact ih w (by rw [hsc]; simp [hw])

theorem pySplit_no_space (s : List Char) :
    ∀ w ∈ pySplit s, w ≠ [] ∧ ∀ c ∈ w, pyIsSpace c = false := by
  intro w hw
  simp only [pySplit, List.mem_filter, decide_eq_true_eq] at hw
  exact ⟨hw.2, splitChars_no_sep _ _ w hw.1⟩

theorem join_filter_ne_nil (L : List (List Char)) :
    (L.filter (fun w => w ≠ [])).flatten = L.flatten := by
  induction L with
  | nil => rfl
  | cons w ws ih =>
    by_cases h : w = []
    · subst h
      simp only [List.filter_cons]
      rw [if_neg (by simp), ih]
      simp
    · simp only [List.filter_cons]
      rw [if_pos (by simp [h]), List.flatten_cons, ih, List.flatten_cons]

theorem join_pySplit (s : List Char) : (pySplit s).flatten = nw s := by
  rw [pySplit, join_filter_ne_nil, join_splitChars]; rfl

theorem pySplit_eq_nil_iff (s : List Char) : pySplit s = [] ↔ nw s = [] := by
  constructor
  · intro h
    rw [← join_pySplit, h]; rfl
  · intro h
    by_contra hne
    obtain ⟨w, ws, hw⟩ := List.exists_cons_of_ne_nil hne
    have h1 := pySplit_no_space s w (by rw [hw]; simp)
    have h2 := join_pySplit s
    rw [hw, h] at h2
    simp only [List.flatten_cons, List.append_eq_nil] at h2
    exact h1.1 h2.1

theorem nw_append (a b : List Char) : nw (a ++ b) = nw a ++ nw b := by
  simp [nw, List.filter_append]

theorem nw_reverse (s : List Char) : nw s.reverse = (nw s).reverse := by
  simp [nw, List.filter_reverse]

theorem nw_dropWhile (s : List Char) : nw (s.dropWhile pyIsSpace) = nw s := by
  induction s with
  | nil => rfl
  | cons c rest ih =>
    by_cases h : pyIsSpace c
    · rw [List.dropWhile_cons_of_pos h, ih]
      simp [nw, List.filter_cons, h]
    · rw [List.dropWhile_cons_of_neg h]

theorem nw_strip (s : List Char) : nw (strip s) = nw s := by
  rw [strip, nw_reverse, nw_dropWhile, nw_reverse, List.reverse_reverse, nw_dropWhile]

theorem nw_nw (s : List Char) : nw (nw s) = nw s := by
  simp [nw, List.filter_filter]

theorem strip_eq_nil_iff (s : List Char) : strip s = [] ↔ nw s = [] := by
  constructor
  · intro h
    rw [← nw_strip, h]; rfl
  · intro h
    have hall : ∀ c ∈ s, pyIsSpace c := by
      intro c hc
      by_contra hcs
      have : c ∈ nw s := by
        simp [nw, List.mem_filter, hc, hcs]
      rw [h] at this
      simp at this
    have h1 : s.dropWhile pyIsSpace = [] := List.dropWhile_eq_nil_iff.mpr hall
    rw [strip, h1]
    rfl

theorem nw_join (L : List (List Char)) : nw L.flatten = (L.map nw).flatten := by
  induction L with
  | nil => rfl
  | cons w ws ih => simp [nw_append, ih]

theorem strip_cons_space (c : Char) (s : List Char) (h : pyIsSpace c = true) :
    strip (c :: s) = strip s := by
  rw [strip, strip, List.dropWhile_cons_of_pos h]

theorem strip_of_no_space (w : List Char) (h : ∀ c ∈ w, pyIsSpace c = false) :
    strip w = w := by
  have h1 : w.dropWhile pyIsSpace = w := by
    cases w with
    | nil => rfl
    | cons c rest => exact List.dropWhile_cons_of_neg (by simp [h c (by simp)])
  have h2 : w.reverse.dropWhile pyIsSpace = w.reverse := by
    cases hw : w.reverse with
    | nil => rfl
    | cons c rest =>
      have hc : c ∈ w := by
        rw [← List.mem_reverse, hw]; simp
      exact List.dropWhile_cons_of_neg (by simp [h c hc])
  rw [strip, h1, h2, List.reverse_reverse]

theorem splitChars_of_no_sep (p : Char → Bool) (s : List Char)
    (h : ∀ c ∈ s, p c = false) : splitChars p s = [s] := by
  induction s with
  | nil => rfl
  | cons c rest ih =>
    simp only [splitChars]
    rw [if_neg (by simp [h c (by simp)])]
    rw [ih (fun d hd => h d (by simp [hd]))]
    rfl

theorem pySplit_single (w : List Char) (hne : w ≠ [])
    (h : ∀ c ∈ w, pyIsSpace c = false) : pySplit w = [w] := by
  rw [pySplit, splitChars_of_no_sep _ _ h]
  simp [hne]

theorem sentPunct_not_space (c : Char) (h : sentPunct c = true) :
    pyIsSpace c = false := by
  simp only [sentPunct, Bool.or_eq_true, decide_eq_true_eq] at h
  rcases h with (h | h) | h <;> subst h <;> decide

theorem nw_cons (c : Char) (s : List Char) :
    nw (c :: s) = if pyIsSpace c then nw s else c :: nw s := by
  by_cases h : pyIsSpace c <;> simp [nw, List.filter_cons, h]

theorem nw_space_cons (c : Char) (s : List Char) (h : pyIsSpace c = true) :
    nw (c :: s) = nw s := by
  rw [nw_cons, if_pos h]

theorem nw_nil : nw [] = [] := rfl

theorem nw_sp (s : List Char) : nw (' ' :: s) = nw s :=
  nw_space_cons _ _ (by decide)

theorem nw_nl (s : List Char) : nw ('\n' :: s) = nw s :=
  nw_space_cons _ _ (by decide)

/-! ### Coverage: each splitting stage preserves the non-whitespace content -/

theorem nw_flatten_splitNN (s : List Char) : nw (splitNN s).flatten = nw s := by
  induction s using splitNN.induct with
  | case1 rest ih =>
    rw [splitNN.eq_1, List.flatten_cons, List.nil_append, ih,
      nw_space_cons _ _ (by decide), nw_space_cons _ _ (by decide)]
  | case2 c rest h ih =>
    rw [splitNN.eq_2 c rest h, join_consHead, nw_cons, nw_cons, ih]
  | case3 => rfl

theorem nw_flatten_splitSentGo (fuel : Nat) :
    ∀ s, nw (splitSentGo fuel s).flatten = nw s := by
  induction fuel with
  | zero =>
    intro s
    cases s with
    | nil => rfl
    | cons c rest => simp [splitSentGo]
  | succ fuel ih =>
    intro s
    cases s with
    | nil => rfl
    | cons c rest =>
      show nw ((if sentPunct c && headIsSpace rest then
          [c] :: splitSentGo fuel (rest.dropWhile pyIsSpace)
        else consHead c (splitSentGo fuel rest)).flatten) = nw (c :: rest)
      by_cases h : sentPunct c && headIsSpace rest
      · rw [if_pos h, List.flatten_cons, nw_append, ih, nw_dropWhile]
        have hc : pyIsSpace c = false :=
          sentPunct_not_space c (by exact (Bool.and_eq_true _ _).mp h |>.1)
        rw [nw_cons, if_neg (by simp [hc]), nw_cons, if_neg (by simp [hc])]
        rfl
      · rw [if_neg h, join_consHead, nw_cons, nw_cons, ih]

theorem nw_flatten_splitSent (s : List Char) : nw (splitSent s).flatten = nw s :=
  nw_flatten_splitSentGo s.length s

theorem nw_flatten_sentences (t : List Char) :
    nw (((splitSent t).map strip).filter (fun s => s ≠ [])).flatten = nw t := by
  rw [join_filter_ne_nil, nw_join, ← nw_flatten_splitSent t, nw_join]
  congr 1
  rw [List.map_map]
  exact List.map_congr_left (fun p _ => by simp [Function.comp, nw_strip])

theorem sbw_go_cov (ct : Counter) (cs : Nat) :
    ∀ (ws chunks : List (List Char)) (cur : List Char) (r : List (List Char)),
      sbw_go ct cs ws chunks cur = some r →
      nw r.flatten = nw chunks.flatten ++ nw cur ++ nw ws.flatten := by
  intro ws
  induction ws with
  | nil =>
    intro chunks cur r h
    simp only [sbw_go, Option.some.injEq] at h
    subst h
    by_cases hc : cur = []
    · rw [if_neg (by simp [hc])]
      simp [hc, nw]
    · rw [if_pos hc]
      simp [nw_append, nw]
  | cons w ws ih =>
    intro chunks cur r h
    cases hct : ct (strip (cur ++ ' ' :: w)) with
    | none =>
      simp only [sbw_go, hct] at h
      exact absurd h (by simp)
    | some tt =>
      simp only [sbw_go, hct] at h
      by_cases hcond : cs < tt ∧ cur ≠ []
      · rw [if_pos hcond] at h
        rw [ih _ _ _ h]
        simp [nw_append, nw_space_cons]
      · rw [if_neg hcond] at h
        rw [ih _ _ _ h, nw_strip, nw_append, nw_space_cons _ _ (by decide)]
        simp [nw_append]

theorem split_by_words_cov (ct : Counter) (cs : Nat) (t : List Char)
    (r : List (List Char)) (h : split_by_words ct cs t = some r) :
    nw r.flatten = nw t := by
  rw [sbw_go_cov ct cs (pySplit t) [] [] r h, join_pySplit, nw_nw]
  rfl

theorem sbs_go_cov (ct : Counter) (cs : Nat) :
    ∀ (ss chunks : List (List Char)) (cur : List Char) (curTok : Nat)
      (r : List (List Char)),
      sbs_go ct cs ss chunks cur curTok = some r →
      nw r.flatten = nw chunks.flatten ++ nw cur ++ nw ss.flatten := by
  intro ss
  induction ss with
  | nil =>
    intro chunks cur curTok r h
    simp only [sbs_go, Option.some.injEq] at h
    subst h
    by_cases hc : strip cur = []
    · rw [if_neg (by simp [hc])]
      have hcur : nw cur = [] := by rw [← nw_strip cur, hc]; rfl
      simp [hcur, nw_nil]
    · rw [if_pos hc]
      simp [List.flatten_append, nw_append, nw_strip, nw_nil]
  | cons s ss ih =>
    intro chunks cur curTok r h
    cases hct : ct s with
    | none =>
      simp only [sbs_go, hct] at h
      exact absurd h (by simp)
    | some st =>
      cases hw : split_by_words ct cs s with
      | none =>
        simp only [sbs_go, hct, hw] at h
        by_cases h1 : cs < st
        · rw [if_pos h1] at h
          exact absurd h (by simp)
        · rw [if_neg h1] at h
          by_cases h2 : cs < curTok + st ∧ cur ≠ []
          · rw [if_pos h2] at h
            rw [ih _ _ _ _ h]
            simp [List.flatten_append, nw_append, nw_strip, nw_nil, List.append_assoc]
          · rw [if_neg h2] at h
            by_cases h3 : cur ≠ []
            · rw [if_pos h3] at h
              rw [ih _ _ _ _ h]
              simp [nw_append, nw_sp, List.append_assoc]
            · rw [if_neg h3] at h
              rw [ih _ _ _ _ h]
              have hc : cur = [] := by simpa using h3
              simp [hc, nw_nil, nw_append]
      | some wcs =>
        have hwc := split_by_words_cov ct cs s wcs hw
        simp only [sbs_go, hct, hw] at h
        by_cases h1 : cs < st
        · rw [if_pos h1] at h
          rw [ih _ _ _ _ h]
          by_cases h3 : cur ≠ []
          · rw [if_pos h3]
            simp [List.flatten_append, nw_append, nw_strip, nw_nil, hwc,
              List.append_assoc]
          · rw [if_neg h3]
            have hc : cur = [] := by simpa using h3
            simp [hc, List.flatten_append, nw_append, nw_nil, hwc, List.append_assoc]
        · rw [if_neg h1] at h
          by_cases h2 : cs < curTok + st ∧ cur ≠ []
          · rw [if_pos h2] at h
            rw [ih _ _ _ _ h]
            simp [List.flatten_append, nw_append, nw_strip, nw_nil, List.append_assoc]
          · rw [if_neg h2] at h
            by_cases h3 : cur ≠ []
            · rw [if_pos h3] at h
              rw [ih _ _ _ _ h]
              simp [nw_append, nw_sp, List.append_assoc]
            · rw [if_neg h3] at h
              rw [ih _ _ _ _ h]
              have hc : cur = [] := by simpa using h3
              simp [hc, nw_nil, nw_append]

theorem split_by_sentences_core_cov (ct : Counter) (cs : Nat) (t : List Char)
    (r : List (List Char)) (h : split_by_sentences_core ct cs t = some r) :
    nw r.flatten = nw t := by
  simp only [split_by_sentences_core] at h
  by_cases h1 : ((splitSent t).map strip).filter (fun s => s ≠ []) = []
  · rw [if_pos h1] at h
    have : r = [t] := by simpa using h.symm
    subst this
    simp
  · rw [if_neg h1] at h
    rw [sbs_go_cov ct cs _ [] [] 0 r h, nw_flatten_sentences]
    rfl

theorem split_by_sentences_cov (ct : Counter) (cs : Nat) (t : List Char) :
    nw (split_by_sentences ct cs t).flatten = nw t := by
  rw [split_by_sentences]
  cases h : split_by_sentences_core ct cs t with
  | none => simp
  | some r =>
    simpa using split_by_sentences_core_cov ct cs t r h

theorem rts_go_cov (ct : Counter) (cs : Nat) :
    ∀ (ps chunks : List (List Char)) (cur : List Char) (curTok : Nat)
      (r : List (List Char)),
      rts_go ct cs ps chunks cur curTok = some r →
      nw r.flatten = nw chunks.flatten ++ nw cur ++ nw ps.flatten := by
  intro ps
  induction ps with
  | nil =>
    intro chunks cur curTok r h
    simp only [rts_go, Option.some.injEq] at h
    subst h
    by_cases hc : strip cur = []
    · rw [if_neg (by simp [hc])]
      have hcur : nw cur = [] := by rw [← nw_strip cur, hc]; rfl
      simp [hcur, nw_nil]
    · rw [if_pos hc]
      simp [List.flatten_append, nw_append, nw_strip, nw_nil]
  | cons para ps ih =>
    intro chunks cur curTok r h
    by_cases hsp : strip para = []
    · simp only [rts_go, if_pos hsp] at h
      rw [ih _ _ _ _ h]
      have hp : nw para = [] := (strip_eq_nil_iff para).mp hsp
      simp [hp, nw_append]
    · simp only [rts_go] at h
      rw [if_neg hsp] at h
      cases hct : ct (strip para) with
      | none =>
        simp only [hct] at h
        exact absurd h (by simp)
      | some pt =>
        simp only [hct] at h
        by_cases h1 : cs < pt
        · rw [if_pos h1] at h
          rw [ih _ _ _ _ h]
          have hsc := split_by_sentences_cov ct cs (strip para)
          rw [nw_strip] at hsc
          by_cases h3 : cur ≠ []
          · rw [if_pos h3]
            simp [List.flatten_append, nw_append, nw_strip, nw_nil, hsc,
              List.append_assoc]
          · rw [if_neg h3]
            have hc : cur = [] := by simpa using h3
            simp [hc, List.flatten_append, nw_append, nw_nil, hsc, List.append_assoc]
        · rw [if_neg h1] at h
          by_cases h2 : cs < curTok + pt ∧ cur ≠ []
          · rw [if_pos h2] at h
            rw [ih _ _ _ _ h]
            simp [List.flatten_append, nw_append, nw_strip, nw_nil, List.append_assoc]
          · rw [if_neg h2] at h
            by_cases h3 : cur ≠ []
            · rw [if_pos h3] at h
              rw [ih _ _ _ _ h]
              simp [nw_append, nw_nl, nw_strip, List.append_assoc]
            · rw [if_neg h3] at h
              rw [ih _ _ _ _ h]
              have hc : cur = [] := by simpa using h3
              simp [hc, nw_nil, nw_strip, nw_append]

theorem hierarchical_cov (ct : Counter) (cs : Nat) (text : List Char)
    (chunks : List (List Char)) (h : hierarchical_chunks ct cs text = some chunks) :
    nw chunks.flatten = nw text := by
  cases hct : ct text with
  | none =>
    simp only [hierarchical_chunks, hct] at h
    exact absurd h (by simp)
  | some tc =>
    simp only [hierarchical_chunks, hct] at h
    by_cases h1 : tc ≤ cs
    · rw [if_pos h1] at h
      have : chunks = [text] := by simpa using h.symm
      subst this
      simp
    · rw [if_neg h1] at h
      by_cases h2 : 1 < (splitNN text).length
      · rw [if_pos h2] at h
        rw [rts_go_cov ct cs (splitNN text) [] [] 0 chunks h, nw_flatten_splitNN]
        rfl
      · rw [if_neg h2] at h
        have : chunks = split_by_sentences ct cs text := by simpa using h.symm
        subst this
        exact split_by_sentences_cov ct cs text

/-! ### Totality of the splitter under a counter that never raises -/

theorem sbw_go_total (f : List Char → Nat) (cs : Nat) :
    ∀ (ws chunks : List (List Char)) (cur : List Char),
      ∃ r, sbw_go (fun s => some (f s)) cs ws chunks cur = some r := by
  intro ws
  induction ws with
  | nil => intro chunks cur; exact ⟨_, rfl⟩
  | cons w ws ih =>
    intro chunks cur
    simp only [sbw_go]
    by_cases hcond : cs < f (strip (cur ++ ' ' :: w)) ∧ cur ≠ []
    · rw [if_pos hcond]; exact ih _ _
    · rw [if_neg hcond]; exact ih _ _

theorem sbs_go_total (f : List Char → Nat) (cs : Nat) :
    ∀ (ss chunks : List (List Char)) (cur : List Char) (curTok : Nat),
      ∃ r, sbs_go (fun s => some (f s)) cs ss chunks cur curTok = some r := by
  intro ss
  induction ss with
  | nil => intro chunks cur curTok; exact ⟨_, rfl⟩
  | cons s ss ih =>
    intro chunks cur curTok
    obtain ⟨wcs, hw⟩ := sbw_go_total f cs (pySplit s) [] []
    have hw2 : split_by_words (fun s => some (f s)) cs s = some wcs := hw
    simp only [sbs_go, hw2]
    by_cases h1 : cs < f s
    · rw [if_pos h1]; exact ih _ _ _
    · rw [if_neg h1]
      by_cases h2 : cs < curTok + f s ∧ cur ≠ []
      · rw [if_pos h2]; exact ih _ _ _
      · rw [if_neg h2]
        by_cases h3 : cur ≠ []
        · rw [if_pos h3]; exact ih _ _ _
        · rw [if_neg h3]; exact ih _ _ _

theorem split_by_sentences_core_total (f : List Char → Nat) (cs : Nat) (t : List Char) :
    ∃ r, split_by_sentences_core (fun s => some (f s)) cs t = some r := by
  simp only [split_by_sentences_core]
  by_cases h : ((splitSent t).map strip).filter (fun s => s ≠ []) = []
  · rw [if_pos h]; exact ⟨_, rfl⟩
  · rw [if_neg h]; exact sbs_go_total f cs _ [] [] 0

/-! ### Budget: chunks stay within the token budget except one-word chunks -/

theorem wordlike_strip_space_cons (w : List Char) (h : wordlike w) :
    strip (' ' :: w) = w := by
  rw [strip_cons_space ' ' w (by decide), strip_of_no_space w h.2]

theorem wordlike_okChunk (f : List Char → Nat) (cs : Nat) (w : List Char)
    (h : wordlike w) : okChunk f cs w := by
  right
  rw [pySplit_single w h.1 h.2]
  simp

theorem sbw_go_budget (f : List Char → Nat) (cs : Nat) :
    ∀ (ws chunks : List (List Char)) (cur : List Char) (r : List (List Char)),
      (∀ w ∈ ws, wordlike w) →
      (∀ c ∈ chunks, okChunk f cs c) →
      (cur = [] ∨ f cur ≤ cs ∨ wordlike cur) →
      sbw_go (fun s => some (f s)) cs ws chunks cur = some r →
      ∀ c ∈ r, okChunk f cs c := by
  intro ws
  induction ws with
  | nil =>
    intro chunks cur r _ hchunks hcur h
    simp only [sbw_go, Option.some.injEq] at h
    subst h
    intro c hc
    by_cases hq : cur = []
    · rw [if_neg (by simp [hq])] at hc
      exact hchunks c hc
    · rw [if_pos hq] at hc
      rcases List.mem_append.mp hc with hc | hc
      · exact hchunks c hc
      · have hceq : c = cur := by simpa using hc
        subst hceq
        rcases hcur with h' | h' | h'
        · exact absurd h' hq
        · exact Or.inl h'
        · exact wordlike_okChunk f cs c h'
  | cons w ws ih =>
    intro chunks cur r hws hchunks hcur h
    simp only [sbw_go] at h
    by_cases hcond : cs < f (strip (cur ++ ' ' :: w)) ∧ cur ≠ []
    · rw [if_pos hcond] at h
      refine ih _ _ _ (fun x hx => hws x (by simp [hx])) ?_
        (Or.inr (Or.inr (hws w (by simp)))) h
      intro c hc
      rcases List.mem_append.mp hc with hc | hc
      · exact hchunks c hc
      · have hceq : c = cur := by simpa using hc
        subst hceq
        rcases hcur with h' | h' | h'
        · exact absurd h' hcond.2
        · exact Or.inl h'
        · exact wordlike_okChunk f cs c h'
    · rw [if_neg hcond] at h
      refine ih _ _ _ (fun x hx => hws x (by simp [hx])) hchunks ?_ h
      by_cases hq : cur = []
      · subst hq
        right; right
        rw [List.nil_append, wordlike_strip_space_cons w (hws w (by simp))]
        exact hws w (by simp)
      · right; left
        have hnum : ¬ cs < f (strip (cur ++ ' ' :: w)) := fun hlt => hcond ⟨hlt, hq⟩
        omega

theorem sentences_empty_nw (t : List Char)
    (h : ((splitSent t).map strip).filter (fun s => s ≠ []) = []) : nw t = [] := by
  have h2 := nw_flatten_sentences t
  rw [h] at h2
  simpa using h2.symm

theorem sbs_go_budget (f : List Char → Nat) (cs : Nat)
    (H2 : ∀ a b, f (a ++ ' ' :: b) ≤ f a + f b)
    (H3 : ∀ s, f (strip s) ≤ f s) :
    ∀ (ss chunks : List (List Char)) (cur : List Char) (curTok : Nat)
      (r : List (List Char)),
      (∀ c ∈ chunks, okChunk f cs c) →
      ((cur = [] ∧ curTok = 0) ∨ (f cur ≤ curTok ∧ curTok ≤ cs)) →
      sbs_go (fun s => some (f s)) cs ss chunks cur curTok = some r →
      ∀ c ∈ r, okChunk f cs c := by
  intro ss
  induction ss with
  | nil =>
    intro chunks cur curTok r hchunks hcur h
    simp only [sbs_go, Option.some.injEq] at h
    subst h
    intro c hc
    by_cases hq : strip cur = []
    · rw [if_neg (by simp [hq])] at hc
      exact hchunks c hc
    · rw [if_pos hq] at hc
      rcases List.mem_append.mp hc with hc | hc
      · exact hchunks c hc
      · have hceq : c = strip cur := by simpa using hc
        subst hceq
        rcases hcur with ⟨hc1, _⟩ | ⟨hc1, hc2⟩
        · exact absurd (by rw [hc1]; rfl) hq
        · exact Or.inl (le_trans (H3 cur) (le_trans hc1 hc2))
  | cons s ss ih =>
    intro chunks cur curTok r hchunks hcur h
    obtain ⟨wcs, hw⟩ := sbw_go_total f cs (pySplit s) [] []
    have hw2 : split_by_words (fun x => some (f x)) cs s = some wcs := hw
    simp only [sbs_go, hw2] at h
    have hflush : ∀ c ∈ (if cur ≠ [] then chunks ++ [strip cur] else chunks),
        okChunk f cs c := by
      intro c hc
      by_cases hq : cur = []
      · rw [if_neg (by simp [hq])] at hc
        exact hchunks c hc
      · rw [if_pos hq] at hc
        rcases List.mem_append.mp hc with hc | hc
        · exact hchunks c hc
        · have hceq : c = strip cur := by simpa using hc
          subst hceq
          rcases hcur with ⟨hc1, _⟩ | ⟨hc1, hc2⟩
          · exact absurd hc1 hq
          · exact Or.inl (le_trans (H3 cur) (le_trans hc1 hc2))
    by_cases h1 : cs < f s
    · rw [if_pos h1] at h
      refine ih _ _ _ _ ?_ (Or.inl ⟨rfl, rfl⟩) h
      intro c hc
      rcases List.mem_append.mp hc with hc | hc
      · exact hflush c hc
      · exact sbw_go_budget f cs (pySplit s) [] [] wcs
          (fun w hw3 => ⟨(pySplit_no_space s w hw3).1, (pySplit_no_space s w hw3).2⟩)
          (by simp) (Or.inl rfl) hw c hc
    · rw [if_neg h1] at h
      by_cases h2 : cs < curTok + f s ∧ cur ≠ []
      · rw [if_pos h2] at h
        refine ih _ _ _ _ ?_ (Or.inr ⟨le_rfl, by omega⟩) h
        intro c hc
        rcases List.mem_append.mp hc with hc | hc
        · exact hchunks c hc
        · have hceq : c = strip cur := by simpa using hc
          subst hceq
          rcases hcur with ⟨hc1, _⟩ | ⟨hc1, hc2⟩
          · exact absurd hc1 h2.2
          · exact Or.inl (le_trans (H3 cur) (le_trans hc1 hc2))
      · rw [if_neg h2] at h
        by_cases h3 : cur ≠ []
        · rw [if_pos h3] at h
          have hcur2 : f cur ≤ curTok ∧ curTok ≤ cs := by
            rcases hcur with ⟨hc1, _⟩ | hcur2
            · exact absurd hc1 h3
            · exact hcur2
          have hbound : curTok + f s ≤ cs := by
            have : ¬ cs < curTok + f s := fun hlt => h2 ⟨hlt, h3⟩
            omega
          refine ih _ _ _ _ hchunks (Or.inr ⟨?_, hbound⟩) h
          exact le_trans (H2 cur s) (Nat.add_le_add hcur2.1 le_rfl)
        · rw [if_neg h3] at h
          exact ih _ _ _ _ hchunks (Or.inr ⟨le_rfl, by omega⟩) h

theorem split_by_sentences_core_budget (f : List Char → Nat) (cs : Nat)
    (H2 : ∀ a b, f (a ++ ' ' :: b) ≤ f a + f b)
    (H3 : ∀ s, f (strip s) ≤ f s)
    (t : List Char) (r : List (List Char))
    (h : split_by_sentences_core (fun s => some (f s)) cs t = some r) :
    ∀ c ∈ r, okChunk f cs c := by
  simp only [split_by_sentences_core] at h
  by_cases hse : ((splitSent t).map strip).filter (fun s => s ≠ []) = []
  · rw [if_pos hse] at h
    have : r = [t] := by simpa using h.symm
    subst this
    intro c hc
    have hct : c = t := by simpa using hc
    subst hct
    right
    rw [(pySplit_eq_nil_iff c).mpr (sentences_empty_nw c hse)]
    simp
  · rw [if_neg hse] at h
    exact sbs_go_budget f cs H2 H3 _ [] [] 0 r (by simp) (Or.inl ⟨rfl, rfl⟩) h

theorem split_by_sentences_budget (f : List Char → Nat) (cs : Nat)
    (H2 : ∀ a b, f (a ++ ' ' :: b) ≤ f a + f b)
    (H3 : ∀ s, f (strip s) ≤ f s) (t : List Char) :
    ∀ c ∈ split_by_sentences (fun s => some (f s)) cs t, okChunk f cs c := by
  obtain ⟨r, hr⟩ := split_by_sentences_core_total f cs t
  rw [split_by_sentences, hr]
  exact split_by_sentences_core_budget f cs H2 H3 t r hr

theorem rts_go_budget (f : List Char → Nat) (cs : Nat)
    (H1 : ∀ a b, f (a ++ '\n' :: '\n' :: b) ≤ f a + f b)
    (H2 : ∀ a b, f (a ++ ' ' :: b) ≤ f a + f b)
    (H3 : ∀ s, f (strip s) ≤ f s) :
    ∀ (ps chunks : List (List Char)) (cur : List Char) (curTok : Nat)
      (r : List (List Char)),
      (∀ c ∈ chunks, okChunk f cs c) →
      ((cur = [] ∧ curTok = 0) ∨ (f cur ≤ curTok ∧ curTok ≤ cs)) →
      rts_go (fun s => some (f s)) cs ps chunks cur curTok = some r →
      ∀ c ∈ r, okChunk f cs c := by
  intro ps
  induction ps with
  | nil =>
    intro chunks cur curTok r hchunks hcur h
    simp only [rts_go, Option.some.injEq] at h
    subst h
    intro c hc
    by_cases hq : strip cur = []
    · rw [if_neg (by simp [hq])] at hc
      exact hchunks c hc
    · rw [if_pos hq] at hc
      rcases List.mem_append.mp hc with hc | hc
      · exact hchunks c hc
      · have hceq : c = strip cur := by simpa using hc
        subst hceq
        rcases hcur with ⟨hc1, _⟩ | ⟨hc1, hc2⟩
        · exact absurd (by rw [hc1]; rfl) hq
        · exact Or.inl (le_trans (H3 cur) (le_trans hc1 hc2))
  | cons para ps ih =>
    intro chunks cur curTok r hchunks hcur h
    by_cases hsp : strip para = []
    · simp only [rts_go, if_pos hsp] at h
      exact ih _ _ _ _ hchunks hcur h
    · simp only [rts_go] at h
      rw [if_neg hsp] at h
      by_cases h1 : cs < f (strip para)
      · rw [if_pos h1] at h
        refine ih _ _ _ _ ?_ (Or.inl ⟨rfl, rfl⟩) h
        intro c hc
        rcases List.mem_append.mp hc with hc | hc
        · by_cases hq : cur = []
          · rw [if_neg (by simp [hq])] at hc
            exact hchunks c hc
          · rw [if_pos hq] at hc
            rcases List.mem_append.mp hc with hc | hc
            · exact hchunks c hc
            · have hceq : c = strip cur := by simpa using hc
              subst hceq
              rcases hcur with ⟨hc1, _⟩ | ⟨hc1, hc2⟩
              · exact absurd hc1 hq
              · exact Or.inl (le_trans (H3 cur) (le_trans hc1 hc2))
        · exact split_by_sentences_budget f cs H2 H3 (strip para) c hc
      · rw [if_neg h1] at h
        by_cases h2 : cs < curTok + f (strip para) ∧ cur ≠ []
        · rw [if_pos h2] at h
          refine ih _ _ _ _ ?_ (Or.inr ⟨le_rfl, by omega⟩) h
          intro c hc
          rcases List.mem_append.mp hc with hc | hc
          · exact hchunks c hc
          · have hceq : c = strip cur := by simpa using hc
            subst hceq
            rcases hcur with ⟨hc1, _⟩ | ⟨hc1, hc2⟩
            · exact absurd hc1 h2.2
            · exact Or.inl (le_trans (H3 cur) (le_trans hc1 hc2))
        · rw [if_neg h2] at h
          by_cases h3 : cur ≠ []
          · rw [if_pos h3] at h
            have hcur2 : f cur ≤ curTok ∧ curTok ≤ cs := by
              rcases hcur with ⟨hc1, _⟩ | hcur2
              · exact absurd hc1 h3
              · exact hcur2
            have hbound : curTok + f (strip para) ≤ cs := by
              have : ¬ cs < curTok + f (strip para) := fun hlt => h2 ⟨hlt, h3⟩
              omega
            refine ih _ _ _ _ hchunks (Or.inr ⟨?_, hbound⟩) h
            exact le_trans (H1 cur (strip para)) (Nat.add_le_add hcur2.1 le_rfl)
          · rw [if_neg h3] at h
            exact ih _ _ _ _ hchunks (Or.inr ⟨le_rfl, by omega⟩) h

theorem hierarchical_budget (f : List Char → Nat) (cs : Nat)
    (H1 : ∀ a b, f (a ++ '\n' :: '\n' :: b) ≤ f a + f b)
    (H2 : ∀ a b, f (a ++ ' ' :: b) ≤ f a + f b)
    (H3 : ∀ s, f (strip s) ≤ f s)
    (text : List Char) (chunks : List (List Char))
    (h : hierarchical_chunks (fun s => some (f s)) cs text = some chunks) :
    ∀ c ∈ chunks, okChunk f cs c := by
  simp only [hierarchical_chunks] at h
  by_cases h1 : f text ≤ cs
  · rw [if_pos h1] at h
    have : chunks = [text] := by simpa using h.symm
    subst this
    intro c hc
    have hct : c = text := by simpa using hc
    subst hct
    exact Or.inl h1
  · rw [if_neg h1] at h
    by_cases h2 : 1 < (splitNN text).length
    · rw [if_pos h2] at h
      exact rts_go_budget f cs H1 H2 H3 (splitNN text) [] [] 0 chunks
        (by simp) (Or.inl ⟨rfl, rfl⟩) h
    · rw [if_neg h2] at h
      have : chunks = split_by_sentences (fun s => some (f s)) cs text := by
        simpa using h.symm
      subst this
      exact split_by_sentences_budget f cs H2 H3 text

/-! ### Overlap injection -/

theorem apply_overlap_go_length (ct : Counter) (co : Nat) :
    ∀ (l : List (List Char)) (prev : List Char),
      (apply_overlap_go ct co prev l).length = l.length := by
  intro l
  induction l with
  | nil => intro prev; rfl
  | cons c rest ih =>
    intro prev
    simp only [apply_overlap_go, List.length_cons, ih]

theorem apply_overlap_length (ct : Counter) (co : Nat) (chunks : List (List Char)) :
    (apply_overlap ct co chunks).length = chunks.length := by
  cases chunks with
  | nil => rfl
  | cons c rest => simp [apply_overlap, apply_overlap_go_length]

theorem apply_overlap_go_getD (ct : Counter) (co : Nat) :
    ∀ (l : List (List Char)) (prev : List Char) (i : Nat), i < l.length →
      (apply_overlap_go ct co prev l).getD i [] =
        ovPair ct co ((prev :: l).getD i []) (l.getD i []) := by
  intro l
  induction l with
  | nil => intro prev i hi; simp at hi
  | cons c rest ih =>
    intro prev i hi
    cases i with
    | zero => simp [apply_overlap_go, ovPair]
    | succ j =>
      simp only [apply_overlap_go, List.getD_cons_succ]
      exact ih c j (by simpa using hi)

theorem apply_overlap_getD_zero (ct : Counter) (co : Nat) (chunks : List (List Char))
    (h : chunks ≠ []) :
    (apply_overlap ct co chunks).getD 0 [] = chunks.getD 0 [] := by
  cases chunks with
  | nil => exact absurd rfl h
  | cons c rest => rfl

theorem apply_overlap_getD_succ (ct : Counter) (co : Nat) (chunks : List (List Char))
    (i : Nat) (hi : i + 1 < chunks.length) :
    (apply_overlap ct co chunks).getD (i + 1) [] =
      ovPair ct co (chunks.getD i []) (chunks.getD (i + 1) []) := by
  cases chunks with
  | nil => simp at hi
  | cons c rest =>
    simp only [apply_overlap, List.getD_cons_succ]
    have hlt : i < rest.length := by simpa using hi
    rw [apply_overlap_go_getD ct co rest c i hlt]

theorem overlap_go_suffix (ct : Counter) (co : Nat) :
    ∀ (rws acc res : List (List Char)),
      overlap_go ct co rws acc = some res → res <:+ (rws.reverse ++ acc) := by
  intro rws
  induction rws with
  | nil =>
    intro acc res h
    simp only [overlap_go, Option.some.injEq] at h
    subst h
    simp
  | cons w rws ih =>
    intro acc res h
    cases hct : ct (joinSpace (w :: acc)) with
    | none =>
      simp only [overlap_go, hct] at h
      exact absurd h (by simp)
    | some tt =>
      simp only [overlap_go, hct] at h
      by_cases hb : co < tt
      · rw [if_pos hb] at h
        have : res = acc := by simpa using h.symm
        subst this
        exact ⟨(w :: rws).reverse, rfl⟩
      · rw [if_neg hb] at h
        have hsuf := ih (w :: acc) res h
        have heq : rws.reverse ++ w :: acc = (w :: rws).reverse ++ acc := by
          simp
        rw [heq] at hsuf
        exact hsuf

theorem overlap_go_bound (ct : Counter) (co : Nat) :
    ∀ (rws acc res : List (List Char)),
      (acc ≠ [] → ∃ m, ct (joinSpace acc) = some m ∧ m ≤ co) →
      overlap_go ct co rws acc = some res →
      res ≠ [] → ∃ m, ct (joinSpace res) = some m ∧ m ≤ co := by
  intro rws
  induction rws with
  | nil =>
    intro acc res hacc h
    simp only [overlap_go, Option.some.injEq] at h
    subst h
    exact hacc
  | cons w rws ih =>
    intro acc res hacc h
    cases hct : ct (joinSpace (w :: acc)) with
    | none =>
      simp only [overlap_go, hct] at h
      exact absurd h (by simp)
    | some tt =>
      simp only [overlap_go, hct] at h
      by_cases hb : co < tt
      · rw [if_pos hb] at h
        have : res = acc := by simpa using h.symm
        subst this
        exact hacc
      · rw [if_neg hb] at h
        exact ih (w :: acc) res (fun _ => ⟨tt, hct, by omega⟩) h

theorem get_overlap_spec (ct : Counter) (prev : List Char) (co : Nat) :
    get_overlap_text ct prev co = [] ∨
    ∃ ws m, ws ≠ [] ∧ ws <:+ pySplit prev ∧
      get_overlap_text ct prev co = joinSpace ws ∧
      ct (joinSpace ws) = some m ∧ m ≤ co := by
  cases hgo : overlap_go ct co (pySplit prev).reverse [] with
  | none =>
    left
    simp only [get_overlap_text, hgo]
  | some res =>
    by_cases hres : res = []
    · left
      simp only [get_overlap_text, hgo, hres]
      rfl
    · right
      have hsuf := overlap_go_suffix ct co (pySplit prev).reverse [] res hgo
      rw [List.append_nil, List.reverse_reverse] at hsuf
      obtain ⟨m, hm, hmle⟩ :=
        overlap_go_bound ct co (pySplit prev).reverse [] res
          (fun hh => absurd rfl hh) hgo hres
      exact ⟨res, m, hres, hsuf, by simp only [get_overlap_text, hgo], hm, hmle⟩

/-! ### Chunk records: filtering and index assignment -/

theorem ctc_go_mem (f : List Char → Nat) (mcs : Nat) :
    ∀ (l : List (List Char)) (i : Nat) (ch : DocChunk), ch ∈ ctc_go f mcs i l →
      i ≤ ch.chunk_index ∧ ch.chunk_index - i < l.length ∧
      ch.content = strip (l.getD (ch.chunk_index - i) []) ∧
      mcs ≤ (strip (l.getD (ch.chunk_index - i) [])).length ∧
      ch.token_count = f (l.getD (ch.chunk_index - i) []) := by
  intro l
  induction l with
  | nil => intro i ch h; simp [ctc_go] at h
  | cons c rest ih =>
    intro i ch h
    simp only [ctc_go] at h
    have step : ch ∈ ctc_go f mcs (i + 1) rest →
        i ≤ ch.chunk_index ∧ ch.chunk_index - i < (c :: rest).length ∧
        ch.content = strip ((c :: rest).getD (ch.chunk_index - i) []) ∧
        mcs ≤ (strip ((c :: rest).getD (ch.chunk_index - i) [])).length ∧
        ch.token_count = f ((c :: rest).getD (ch.chunk_index - i) []) := by
      intro hmem
      obtain ⟨h1, h2, h3, h4, h5⟩ := ih (i + 1) ch hmem
      have hsub : ch.chunk_index - i = (ch.chunk_index - (i + 1)) + 1 := by omega
      rw [hsub]
      refine ⟨by omega, ?_, ?_, ?_, ?_⟩
      · simp only [List.length_cons]; omega
      · rw [List.getD_cons_succ]; exact h3
      · rw [List.getD_cons_succ]; exact h4
      · rw [List.getD_cons_succ]; exact h5
    by_cases hm : (strip c).length < mcs
    · rw [if_pos hm] at h
      exact step h
    · rw [if_neg hm] at h
      rcases List.mem_cons.mp h with rfl | h
      · refine ⟨le_rfl, ?_, ?_, ?_, ?_⟩ <;> simp
        omega
      · exact step h

theorem ctc_go_pairwise (f : List Char → Nat) (mcs : Nat) :
    ∀ (l : List (List Char)) (i : Nat),
      List.Pairwise (fun a b => a.chunk_index < b.chunk_index) (ctc_go f mcs i l) := by
  intro l
  induction l with
  | nil => intro i; simp [ctc_go]
  | cons c rest ih =>
    intro i
    simp only [ctc_go]
    by_cases hm : (strip c).length < mcs
    · rw [if_pos hm]; exact ih (i + 1)
    · rw [if_neg hm]
      refine List.Pairwise.cons ?_ (ih (i + 1))
      intro ch hch
      have := (ctc_go_mem f mcs rest (i + 1) ch hch).1
      simp only []
      omega

/-! ### Facts about the concrete counters and about joinSpace -/

theorem nwcount_nn (a b : List Char) :
    nwcount (a ++ '\n' :: '\n' :: b) = nwcount a + nwcount b := by
  simp [nwcount, nw_append, nw_nl]

theorem nwcount_sp (a b : List Char) :
    nwcount (a ++ ' ' :: b) = nwcount a + nwcount b := by
  simp [nwcount, nw_append, nw_sp]

theorem nwcount_strip (s : List Char) : nwcount (strip s) = nwcount s := by
  rw [nwcount, nw_strip]
  rfl

theorem joinSpace_ne_nil (ws : List (List Char)) (h : ws ≠ [])
    (hw : ∀ w ∈ ws, w ≠ []) : joinSpace ws ≠ [] := by
  obtain ⟨w, rest, rfl⟩ := List.exists_cons_of_ne_nil h
  cases rest with
  | nil =>
    have : joinSpace [w] = w := by
      simp [joinSpace, List.intercalate, List.intersperse]
    rw [this]
    exact hw w (by simp)
  | cons r rs =>
    simp [joinSpace, List.intercalate, List.intersperse]

/-! ### Claims -/

/-- C1 counterexample: with the pure, total character-count token counter and
the valid configuration chunk_size = 5, chunk_overlap = 2, min_chunk_size = 1,
the hierarchical split of "ab\n\ncd" returns, before overlap injection, a
single chunk whose token count is 6 > 5 and which contains two words — so it
is not covered by the single-word exception, refuting the budget property as
stated for arbitrary pure total counters. -/
theorem C1_counterexample :
    hierarchical_chunks ccounter 5 "ab\n\ncd".toList = some ["ab\n\ncd".toList] ∧
    5 < ccount "ab\n\ncd".toList ∧ 2 ≤ (pySplit "ab\n\ncd".toList).length := by
  decide

/-- C1 (amended): for every token counter that is subadditive over the
double-newline and single-space joins and non-increasing under trimming,
every chunk produced by the hierarchical split before overlap injection has
token count at most chunk_size, except chunks containing at most one word
(an oversized single word, or a whitespace-only input). -/
theorem C1_budget_amended (f : List Char → Nat) (cs : Nat)
    (H1 : ∀ a b, f (a ++ '\n' :: '\n' :: b) ≤ f a + f b)
    (H2 : ∀ a b, f (a ++ ' ' :: b) ≤ f a + f b)
    (H3 : ∀ s, f (strip s) ≤ f s)
    (text : List Char) (chunks : List (List Char))
    (h : hierarchical_chunks (fun s => some (f s)) cs text = some chunks) :
    ∀ c ∈ chunks, f c ≤ cs ∨ (pySplit c).length ≤ 1 :=
  hierarchical_budget f cs H1 H2 H3 text chunks h

/-- C1 witness: the amended budget theorem applied to the non-whitespace
character counter, chunk_size 4 and the text "ab cd ef". -/
theorem C1_budget_amended_witness :
    nwcount "ab cd".toList ≤ 4 ∨ (pySplit "ab cd".toList).length ≤ 1 :=
  C1_budget_amended nwcount 4
    (fun a b => le_of_eq (nwcount_nn a b))
    (fun a b => le_of_eq (nwcount_sp a b))
    (fun s => le_of_eq (nwcount_strip s))
    "ab cd ef".toList ["ab cd".toList, "ef".toList] (by decide)
    "ab cd".toList (by decide)

/-- C2 counterexample: with the word counter, the valid configuration
chunk_size = 10, chunk_overlap = 2, and the not-yet-trimmed input " a "
(whose token count 1 is within the budget), the split returns [" a "],
not [trim(" a ")] — the base case returns the text verbatim. -/
theorem C2_counterexample :
    recursive_token_split wcounter 10 2 " a ".toList = [" a ".toList] ∧
    [" a ".toList] ≠ [strip " a ".toList] := by
  decide

/-- C2 (amended): for every text and counter whose count of the whole text
is at most chunk_size, the split returns exactly the one-element sequence
containing the text itself, untrimmed; this coincides with [trim(text)]
exactly when the text carries no leading or trailing whitespace. -/
theorem C2_trivial_amended (ct : Counter) (cs co : Nat) (text : List Char)
    (n : Nat) (h : ct text = some n) (hn : n ≤ cs) :
    recursive_token_split ct cs co text = [text] := by
  have hh : hierarchical_chunks ct cs text = some [text] := by
    simp only [hierarchical_chunks, h, if_pos hn]
  simp only [recursive_token_split, recursive_token_split_core, hh]
  simp

/-- C2 witness: the amended trivial-input theorem at the word counter,
chunk_size 10, overlap 2 and input " a ". -/
theorem C2_trivial_amended_witness :
    recursive_token_split wcounter 10 2 " a ".toList = [" a ".toList] :=
  C2_trivial_amended wcounter 10 2 " a ".toList 1 (by decide) (by decide)

/-- C3 counterexample: with the word counter (which returns 0 on the empty
string) and the valid configuration chunk_size = 10, chunk_overlap = 2, the
split of the empty string returns the one-element sequence [""], not the
empty sequence. -/
theorem C3_counterexample :
    wcounter [] = some 0 ∧
    recursive_token_split wcounter 10 2 [] = [[]] ∧
    ([[]] : List (List Char)) ≠ [] := by
  decide

/-- C3 (amended): for every counter returning 0 on the empty string and
every positive min_chunk_size, the split of the empty string returns the
singleton [""] and the min-chunk-size filter then drops it, so the resulting
fragment sequence is empty. -/
theorem C3_empty_amended (ct : Counter) (cs co mcs : Nat) (f : List Char → Nat)
    (h : ct [] = some 0) (hm : 0 < mcs) :
    recursive_token_split ct cs co [] = [[]] ∧
    create_token_chunks f mcs (recursive_token_split ct cs co []) = [] := by
  have h1 : recursive_token_split ct cs co [] = [[]] := by
    have hh : hierarchical_chunks ct cs [] = some [[]] := by
      simp only [hierarchical_chunks, h, if_pos (Nat.zero_le cs)]
    simp only [recursive_token_split, recursive_token_split_core, hh]
    simp
  refine ⟨h1, ?_⟩
  rw [h1]
  simp only [create_token_chunks, ctc_go]
  rw [if_pos (by simp [strip]; exact hm)]

/-- C3 witness: the amended empty-input theorem at the word counter,
chunk_size 10, overlap 2, min_chunk_size 1. -/
theorem C3_empty_amended_witness :
    recursive_token_split wcounter 10 2 [] = [[]] ∧
    create_token_chunks wcount 1 (recursive_token_split wcounter 10 2 []) = [] :=
  C3_empty_amended wcounter 10 2 1 wcount (by decide) (by decide)

/-- C4: constructing the chunking configuration raises if and only if
chunk_size ≤ 0, or min_chunk_size ≤ 0, or chunk_overlap < 0, or
chunk_overlap ≥ chunk_size; and an otherwise valid configuration with
min_chunk_size > chunk_size * 4 raises nothing and only sets the advisory
size-mismatch warning. -/
theorem C4_validation_iff (cs co mcs : Int) :
    ((validate_chunk_parameters cs co mcs).isSome ↔
      (cs ≤ 0 ∨ mcs ≤ 0 ∨ co < 0 ∨ cs ≤ co)) ∧
    (0 < cs → 0 ≤ co → co < cs → 0 < mcs → cs * 4 < mcs →
      validate_chunk_parameters cs co mcs = none ∧
      size_mismatch_warning cs mcs = true) := by
  constructor
  · simp only [validate_chunk_parameters]
    split_ifs <;> simp_all
  · intro h1 h2 h3 h4 h5
    constructor
    · simp only [validate_chunk_parameters]
      split_ifs <;> first | rfl | omega
    · simp [size_mismatch_warning, h5]

/-- C4 witness: the validation theorem at the valid configuration
chunk_size = 1, chunk_overlap = 0, min_chunk_size = 100 (which trips only
the advisory warning). -/
theorem C4_validation_iff_witness :
    validate_chunk_parameters 1 0 100 = none ∧
    size_mismatch_warning 1 100 = true :=
  (C4_validation_iff 1 0 100).2 (by decide) (by decide) (by decide) (by decide)
    (by decide)

/-- C5 counterexample: with the valid configuration chunk_size = 1,
chunk_overlap = 0 and a counter that raises exactly on the sentence "ab.",
an internal error does occur during hierarchical splitting (the sentence
stage returns none), yet the split returns ["ab. cd"] — the text swallowed
whole by the sentence splitter's own handler — and not the character-based
fallback ["ab.", "cd"]. -/
theorem C5_counterexample :
    split_by_sentences_core exCounterSent 1 "ab. cd".toList = none ∧
    recursive_token_split exCounterSent 1 0 "ab. cd".toList = ["ab. cd".toList] ∧
    fallback_character_split 1 "ab. cd".toList = ["ab.".toList, "cd".toList] ∧
    ["ab. cd".toList] ≠ ["ab.".toList, "cd".toList] := by
  decide

/-- C5 (amended): an error raised by the counter on the whole text — the
top layer of hierarchical splitting — is caught and the split returns the
character-based fallback of the whole text; errors arising inside
sentence-level splitting are instead absorbed there, the affected text being
returned unsplit, and in neither case does an exception propagate. -/
theorem C5_fallback_amended (ct : Counter) (cs co : Nat) (text : List Char)
    (h : ct text = none) :
    recursive_token_split ct cs co text = fallback_character_split cs text := by
  simp only [recursive_token_split, recursive_token_split_core,
    hierarchical_chunks, h]
  rfl

/-- C5 witness: the amended fallback theorem at the always-raising counter
and the input "ab". -/
theorem C5_fallback_amended_witness :
    recursive_token_split noneCounter 1 0 "ab".toList =
      fallback_character_split 1 "ab".toList :=
  C5_fallback_amended noneCounter 1 0 "ab".toList rfl

/-- C6 counterexample: applying overlap with the word counter and
chunk_overlap = 2 to the chunk sequence ["a\n\nb", "c"] prepends "a b",
which is the space-join of the previous chunk's words but not a suffix of
the previous chunk's content "a\n\nb" — so the overlap property fails as
stated. -/
theorem C6_counterexample :
    ¬ ∃ ov : List Char, ov <:+ "a\n\nb".toList ∧ wcount ov ≤ 2 ∧
      (apply_overlap wcounter 2 ["a\n\nb".toList, "c".toList]).getD 1 [] =
        ov ++ ' ' :: "c".toList := by
  rintro ⟨ov, hsuf, _, heq⟩
  have hres : (apply_overlap wcounter 2 ["a\n\nb".toList, "c".toList]).getD 1 [] =
      "a b c".toList := by decide
  rw [hres] at heq
  have key : "a b".toList ++ ' ' :: "c".toList = ov ++ ' ' :: "c".toList := by
    rw [← heq]
    decide
  have hov := List.append_cancel_right key
  rw [← hov] at hsuf
  exact absurd hsuf (by decide)

/-- C6 (amended): for every chunk sequence, the overlap step preserves the
number of chunks, never modifies the first chunk, and every later chunk is
either returned unchanged or prefixed with the single-space join of a
non-empty suffix of the previous pre-overlap chunk's word sequence whose
token count the counter reports as at most chunk_overlap; the suffix is
computed only from the pre-overlap sequence. -/
theorem C6_overlap_amended (ct : Counter) (co : Nat) (chunks : List (List Char))
    (i : Nat) :
    (apply_overlap ct co chunks).length = chunks.length ∧
    (chunks ≠ [] → (apply_overlap ct co chunks).getD 0 [] = chunks.getD 0 []) ∧
    (0 < i → i < chunks.length →
      (apply_overlap ct co chunks).getD i [] = chunks.getD i [] ∨
      ∃ ws m, ws ≠ [] ∧ ws <:+ pySplit (chunks.getD (i - 1) []) ∧
        ct (joinSpace ws) = some m ∧ m ≤ co ∧
        (apply_overlap ct co chunks).getD i [] =
          joinSpace ws ++ ' ' :: chunks.getD i []) := by
  refine ⟨apply_overlap_length ct co chunks,
    fun h => apply_overlap_getD_zero ct co chunks h, ?_⟩
  intro hi0 hilen
  obtain ⟨j, rfl⟩ : ∃ j, i = j + 1 := ⟨i - 1, by omega⟩
  rw [apply_overlap_getD_succ ct co chunks j hilen]
  rcases get_overlap_spec ct (chunks.getD j []) co with hov |
    ⟨ws, m, hne, hsuf, hoveq, hm, hmle⟩
  · left
    rw [ovPair, if_neg (by rw [hov]; simp)]
  · right
    have hws_nonnil : ∀ w ∈ ws, w ≠ [] := by
      intro w hw
      exact (pySplit_no_space _ w (hsuf.subset hw)).1
    refine ⟨ws, m, hne, by simpa using hsuf, hm, hmle, ?_⟩
    rw [ovPair, if_pos (by rw [hoveq]; exact joinSpace_ne_nil ws hne hws_nonnil),
      hoveq]

/-- C6 witness: the amended overlap theorem at the word counter,
chunk_overlap 1 and chunks ["a b", "c"], position 1. -/
theorem C6_overlap_amended_witness :
    (apply_overlap wcounter 1 ["a b".toList, "c".toList]).getD 1 [] =
      ["a b".toList, "c".toList].getD 1 [] ∨
    ∃ ws m, ws ≠ [] ∧ ws <:+ pySplit (["a b".toList, "c".toList].getD 0 []) ∧
      wcounter (joinSpace ws) = some m ∧ m ≤ 1 ∧
      (apply_overlap wcounter 1 ["a b".toList, "c".toList]).getD 1 [] =
        joinSpace ws ++ ' ' :: ["a b".toList, "c".toList].getD 1 [] :=
  (C6_overlap_amended wcounter 1 ["a b".toList, "c".toList] 1).2.2 (by decide)
    (by decide)

/-- C7: with a pure total token counter, concatenating the pre-overlap,
pre-filter fragments produced by the hierarchical split reproduces the
original text's non-whitespace characters in order. -/
theorem C7_coverage (f : List Char → Nat) (cs : Nat) (text : List Char)
    (chunks : List (List Char))
    (h : hierarchical_chunks (fun s => some (f s)) cs text = some chunks) :
    nw chunks.flatten = nw text :=
  hierarchical_cov (fun s => some (f s)) cs text chunks h

/-- C7 witness: the coverage theorem at the word counter, chunk_size 2 and
the text "aa bb cc", which splits into ["aa bb", "cc"]. -/
theorem C7_coverage_witness :
    nw (["aa bb".toList, "cc".toList] : List (List Char)).flatten =
      nw "aa bb cc".toList :=
  C7_coverage wcount 2 "aa bb cc".toList ["aa bb".toList, "cc".toList] (by decide)

/-- C8: with chunk_size 10, chunk_overlap 2, min_chunk_size 1 and the
word counter, the input of 25 distinct one-token words separated by single
spaces yields exactly three pre-overlap chunks of 10, 10 and 5 words, the
filter retains all three, and chunks 2 and 3 each begin with the last two
words of the preceding pre-overlap chunk followed by a space. -/
theorem C8_scenario :
    hierarchical_chunks wcounter 10
        "a b c d e f g h i j k l m n o p q r s t u v w x y".toList =
      some ["a b c d e f g h i j".toList, "k l m n o p q r s t".toList,
        "u v w x y".toList] ∧
    wcount "a b c d e f g h i j".toList = 10 ∧
    wcount "k l m n o p q r s t".toList = 10 ∧
    wcount "u v w x y".toList = 5 ∧
    recursive_token_split wcounter 10 2
        "a b c d e f g h i j k l m n o p q r s t u v w x y".toList =
      ["a b c d e f g h i j".toList,
        joinSpace ((pySplit "a b c d e f g h i j".toList).drop 8) ++ ' ' ::
          "k l m n o p q r s t".toList,
        joinSpace ((pySplit "k l m n o p q r s t".toList).drop 8) ++ ' ' ::
          "u v w x y".toList] ∧
    wcount (joinSpace ((pySplit "a b c d e f g h i j".toList).drop 8)) = 2 ∧
    wcount (joinSpace ((pySplit "k l m n o p q r s t".toList).drop 8)) = 2 ∧
    (create_token_chunks wcount 1 (recursive_token_split wcounter 10 2
        "a b c d e f g h i j k l m n o p q r s t u v w x y".toList)).length = 3 := by
  decide

/-- C9 counterexample: filtering ["abcd", "x", "efgh"] with
min_chunk_size = 2 drops the middle fragment but the retained fragments keep
the enumeration indices 0 and 2 of the pre-filter sequence — not the
sequential indices 0 and 1 over the retained set, so dropped fragments do
consume index slots. -/
theorem C9_counterexample :
    (create_token_chunks ccount 2
        ["abcd".toList, "x".toList, "efgh".toList]).map DocChunk.chunk_index =
      [0, 2] ∧
    [0, 2] ≠ List.range 2 := by
  decide

/-- C9 (amended): retained fragments are assigned strictly increasing
indices equal to their zero-based position in the pre-filter sequence, each
retained record holding the trimmed content, the min-size bound and the
token count of the fragment at that position — so dropped fragments do
consume index slots. -/
theorem C9_index_amended (f : List Char → Nat) (mcs : Nat)
    (l : List (List Char)) :
    List.Pairwise (fun a b => a.chunk_index < b.chunk_index)
      (create_token_chunks f mcs l) ∧
    ∀ ch ∈ create_token_chunks f mcs l,
      ch.chunk_index < l.length ∧
      ch.content = strip (l.getD ch.chunk_index []) ∧
      mcs ≤ (strip (l.getD ch.chunk_index [])).length ∧
      ch.token_count = f (l.getD ch.chunk_index []) := by
  constructor
  · exact ctc_go_pairwise f mcs l 0
  · intro ch hch
    have h := ctc_go_mem f mcs l 0 ch hch
    simpa using h.2

/-- C9 witness: the amended index theorem at the character counter,
min_chunk_size 1 and the single fragment "ab". -/
theorem C9_index_amended_witness :
    (⟨0, "ab".toList, 2⟩ : DocChunk).chunk_index < (["ab".toList]).length ∧
    (⟨0, "ab".toList, 2⟩ : DocChunk).content =
      strip ((["ab".toList]).getD (⟨0, "ab".toList, 2⟩ : DocChunk).chunk_index []) ∧
    1 ≤ (strip ((["ab".toList]).getD
      (⟨0, "ab".toList, 2⟩ : DocChunk).chunk_index [])).length ∧
    (⟨0, "ab".toList, 2⟩ : DocChunk).token_count =
      ccount ((["ab".toList]).getD (⟨0, "ab".toList, 2⟩ : DocChunk).chunk_index []) :=
  (C9_index_amended ccount 1 ["ab".toList]).2 ⟨0, "ab".toList, 2⟩ (by decide)

/-- C10: if the hierarchical stage succeeds and the counter raises only
during overlap computation, the split still returns the overlapped
hierarchical sequence (the character fallback is not invoked), the sequence
keeps its length, and a chunk whose overlap computation raises gets the
empty overlap text and is kept unchanged. -/
theorem C10_overlap_failure (ct : Counter) (cs co : Nat) (text : List Char)
    (chunks : List (List Char)) (i : Nat)
    (h : hierarchical_chunks ct cs text = some chunks)
    (hlen : 1 < chunks.length) (hco : 0 < co) :
    recursive_token_split ct cs co text = apply_overlap ct co chunks ∧
    (apply_overlap ct co chunks).length = chunks.length ∧
    (0 < i → i < chunks.length →
      overlap_go ct co (pySplit (chunks.getD (i - 1) [])).reverse [] = none →
      get_overlap_text ct (chunks.getD (i - 1) []) co = [] ∧
      (apply_overlap ct co chunks).getD i [] = chunks.getD i []) := by
  refine ⟨?_, apply_overlap_length ct co chunks, ?_⟩
  · simp only [recursive_token_split, recursive_token_split_core, h]
    rw [if_pos ⟨hlen, hco⟩]
    rfl
  · intro hi0 hilen hnone
    have hov : get_overlap_text ct (chunks.getD (i - 1) []) co = [] := by
      simp only [get_overlap_text, hnone]
    refine ⟨hov, ?_⟩
    obtain ⟨j, rfl⟩ : ∃ j, i = j + 1 := ⟨i - 1, by omega⟩
    simp only [Nat.add_sub_cancel] at hov
    rw [apply_overlap_getD_succ ct co chunks j hilen, ovPair,
      if_neg (by rw [hov]; simp)]

/-- C10 witness: the overlap-failure theorem at the counter that raises only
on the word "b" (queried only during overlap computation), chunk_size 2,
chunk_overlap 1 and the input "a b c d", whose hierarchical chunks are
["a b", "c d"]. -/
theorem C10_overlap_failure_witness :
    get_overlap_text exCounterOv "a b".toList 1 = [] ∧
    (apply_overlap exCounterOv 1 ["a b".toList, "c d".toList]).getD 1 [] =
      "c d".toList :=
  (C10_overlap_failure exCounterOv 2 1 "a b c d".toList
    ["a b".toList, "c d".toList] 1 (by decide) (by decide) (by decide)).2.2
    (by decide) (by decide) (by decide)

end DocProc
